import Mathlib

/-!
# Verification of the DHT11 single-wire driver

Shallow embedding of `src/dht11/dht11.rs` (protocol driver) and
`src/dht11/dwt_delay.rs` (cycle-counter microsecond delay).

Modelling conventions:

* The data line is a function `line : Nat → Bool` giving the sampled level
  (`true` = high) at each microsecond tick.  `Pin::is_high()` samples the line
  at the current tick; `delay_1us()` advances the tick by one.  The two
  `Timer::after` suspensions in `read` advance the tick by 20000 and 40.
* The busy-wait loops of the Rust code are written as structurally recursive
  functions whose fuel mirrors the loop bound exactly (`count > timeout_us`
  and `high_time < 200`).
* Pin reconfigurations (`set_as_output`, `set_high`, `set_low`,
  `set_as_input`) are recorded in an event trace in program order.
* `u8` values are `Nat` with explicit `% 256` where the code wraps
  (`wrapping_add`); `u32` values are `Nat` with explicit `% 2^32`.
* `f32` values are modelled as integer multiples of `2^(-27)`, stored scaled
  by `2^27`, with IEEE-754 binary32 round-to-nearest-even implemented on
  fractions of naturals.  Every `f32` value produced by this driver is either
  `0` or lies in `[2^(-4), 2^9)`, where the binary32 ulp is at least
  `2^(-27)`, so this scaled representation is exact for the driver's range.
-/

/-- Errors returned by the driver (`DhtError` in `dht11.rs`). -/
inductive DhtError where
  | Timeout
  | ChecksumError
deriving DecidableEq

/-- Pin reconfiguration operations performed by `read` (on the `Flex` pin). -/
inductive PinEvent where
  | setOutput
  | setHigh
  | setLow
  | setInput
deriving DecidableEq

/-- Structure `DhtReading` of `dht11.rs`; the two `f32` fields are stored as
the scaled integers described in the header. -/
structure DhtReading where
  temperature : Nat
  humidity : Nat
deriving DecidableEq

/-! ## Binary32 arithmetic model -/

/-- Fuel-based `Nat.log2` (structural, so the kernel can evaluate it). -/
def natLog2Aux : Nat → Nat → Nat
  | _, 0 => 0
  | n, fuel+1 => if 2 ≤ n then natLog2Aux (n / 2) fuel + 1 else 0

/-- Floor of `log2 n` for `n ≥ 1` (0 at 0). -/
def natLog2 (n : Nat) : Nat := natLog2Aux n n

/-- Ceiling of `log2 c` for a natural `c ≥ 1`. -/
def clog2 (c : Nat) : Nat := if c ≤ 1 then 0 else natLog2 (c - 1) + 1

/-- Floor of `log2 (num/den)` for a positive fraction, as an integer. -/
def floorLog2Frac (num den : Nat) : Int :=
  if den ≤ num then (natLog2 (num / den) : Int)
  else -(clog2 ((den + num - 1) / num) : Int)

/-- Round `N / D` to the nearest natural, ties to even. -/
def rne (N D : Nat) : Nat :=
  let q := N / D
  let r := N % D
  if 2 * r < D then q
  else if D < 2 * r then q + 1
  else if q % 2 = 0 then q else q + 1

/-- Round the fraction `num / den` to the nearest IEEE-754 binary32 value
(round-to-nearest, ties-to-even), returned scaled by `2^27`.  Exact for
values that are `0` or lie in `[2^(-4), 2^9)` — the full range produced by
this driver (see header). -/
def roundF32s (num den : Nat) : Nat :=
  if num = 0 then 0
  else
    let e : Int := floorLog2Frac num den
    let m := rne (num * 2 ^ (23 - e).toNat) (den * 2 ^ (e - 23).toNat)
    m * 2 ^ (e + 4).toNat / 2 ^ (-(e + 4)).toNat

/-- Conversion `n as f32` (exact for `n < 2^24`, hence for all frame bytes). -/
def f32ofNat (n : Nat) : Nat := roundF32s n 1

/-- Multiplication of two `f32` values: both operands scaled by `2^27`, so
the exact product is `x*y / 2^54`. -/
def f32mul (x y : Nat) : Nat := roundF32s (x * y) (2 ^ 54)

/-- Addition of two scaled `f32` values. -/
def f32add (x y : Nat) : Nat := roundF32s (x + y) (2 ^ 27)

/-- The `f32` literal `0.1` of `dht11.rs` line 122/123. -/
def f32Tenth : Nat := roundF32s 1 10

/-- The exact rational value of a scaled `f32`. -/
def toRatF32 (v : Nat) : ℚ := (v : ℚ) / 2 ^ 27

/-- Value `intPart as f32 + (fracPart as f32) * 0.1` — the parse of lines
122–123 of `dht11.rs`. -/
def parseValue (intPart fracPart : Nat) : Nat :=
  f32add (f32ofNat intPart) (f32mul (f32ofNat fracPart) f32Tenth)

/-! ## The driver's busy-wait loops -/

/-- Common body of `wait_for_low` / `wait_for_high`: sample the line at
consecutive ticks until it reads `target`; the fuel is the number of samples
the Rust loop can make (`timeout_us + 1`) before `count > timeout_us`
returns `Timeout`. -/
def waitAux (line : Nat → Bool) (target : Bool) : Nat → Nat → Except DhtError Nat
  | _, 0 => .error .Timeout
  | t, fuel+1 => if line t = target then .ok t else waitAux line target (t + 1) fuel

/-- Method `Dht11::wait_for_low` (dht11.rs lines 131–141), started at tick `t`. -/
def wait_for_low (line : Nat → Bool) (timeout_us t : Nat) : Except DhtError Nat :=
  waitAux line false t (timeout_us + 1)

/-- Method `Dht11::wait_for_high` (dht11.rs lines 143–153), started at tick `t`. -/
def wait_for_high (line : Nat → Bool) (timeout_us t : Nat) : Except DhtError Nat :=
  waitAux line true t (timeout_us + 1)

/-- The high-pulse measurement loop of `read` (dht11.rs lines 72–76):
`while is_high && high_time < 200 { delay_1us(); high_time += 1 }`.
Arguments: current tick, accumulated `high_time`, remaining fuel
(`200 - high_time`).  Returns `(high_time, tick)` at loop exit. -/
def measureAux (line : Nat → Bool) : Nat → Nat → Nat → Nat × Nat
  | t, ht, 0 => (ht, t)
  | t, ht, fuel+1 => if line t then measureAux line (t + 1) (ht + 1) fuel else (ht, t)

/-- One iteration of the inner bit loop of `read` (dht11.rs lines 66–93):
wait for the bit-start high edge, measure the high pulse (cap 200),
classify with the `high_time > 20` threshold, wait for the bit-end low. -/
def readBit (line : Nat → Bool) (t : Nat) : Except DhtError (Bool × Nat) := do
  let t1 ← wait_for_high line 100 t
  let p := measureAux line t1 0 200
  let t3 ← wait_for_low line 100 p.2
  .ok (decide (20 < p.1), t3)

/-- The inner `for bit in (0..8).rev()` loop: with `k+1` bits remaining the
current bit is or-ed into position `k` (`*byte |= 1 << bit`). -/
def readByteAux (line : Nat → Bool) : Nat → Nat → Nat → Except DhtError (Nat × Nat)
  | 0, b, t => .ok (b, t)
  | k+1, b, t => do
      let r ← readBit line t
      readByteAux line k (if r.1 then b ||| (1 <<< k) else b) r.2

/-- One iteration of the outer `for byte in data.iter_mut()` loop. -/
def readByte (line : Nat → Bool) (t : Nat) : Except DhtError (Nat × Nat) :=
  readByteAux line 8 0 t

/-- First tick at which the line is sampled: `read` suspends 20 ms with the
line driven low and then 40 µs with it driven high before switching to
input (dht11.rs lines 40–49). -/
def startTime : Nat := 20040

/-- Pin events before the first sample (dht11.rs lines 40–49). -/
def startEvents : List PinEvent :=
  [PinEvent.setOutput, PinEvent.setLow, PinEvent.setHigh, PinEvent.setInput]

/-- Pin events parking the line after the 40 data bits (dht11.rs lines 96–98). -/
def parkEvents : List PinEvent := [PinEvent.setOutput, PinEvent.setHigh]

/-- The checksum computed by `read` (dht11.rs lines 110–113):
`data[0].wrapping_add(data[1]).wrapping_add(data[2]).wrapping_add(data[3])`
on `u8`. -/
def wireChecksum (d0 d1 d2 d3 : Nat) : Nat :=
  ((((d0 + d1) % 256) + d2) % 256 + d3) % 256

/-- The sampling part of `read` (dht11.rs lines 51–94): the three
acknowledge edges and then 5 bytes of 8 bits.  Returns the five data bytes
and the final tick. -/
def readProto (line : Nat → Bool) :
    Except DhtError ((Nat × Nat × Nat × Nat × Nat) × Nat) := do
  let t1 ← wait_for_low line 100 startTime
  let t2 ← wait_for_high line 100 t1
  let t3 ← wait_for_low line 100 t2
  let b0 ← readByte line t3
  let b1 ← readByte line b0.2
  let b2 ← readByte line b1.2
  let b3 ← readByte line b2.2
  let b4 ← readByte line b3.2
  .ok ((b0.1, b1.1, b2.1, b3.1, b4.1), b4.2)

/-- Method `Dht11::read` (dht11.rs lines 38–129): the full call, returning the
result together with the trace of pin reconfigurations it performed.  A
`Timeout` from any wait aborts before the parking events; the parking
events (lines 96–98) precede the checksum test, so they are present on both
the `Ok` and the `ChecksumError` paths. -/
def dhtRead (line : Nat → Bool) : Except DhtError DhtReading × List PinEvent :=
  match readProto line with
  | .error e => (.error e, startEvents)
  | .ok ((d0, d1, d2, d3, d4), _) =>
      if wireChecksum d0 d1 d2 d3 ≠ d4 then
        (.error .ChecksumError, startEvents ++ parkEvents)
      else
        (.ok { temperature := parseValue d2 d3, humidity := parseValue d0 d1 },
         startEvents ++ parkEvents)

/-! ## A wire-level encoder for frames (used to drive the model) -/

/-- High-pulse length used by the encoder for a bit: 30 µs for `1`, 10 µs
for `0` (both within the timing the sensor produces and the 20 µs
threshold's two sides). -/
def bitH (b : Bool) : Nat := if b then 30 else 10

/-- Wire duration of one encoded bit: 50 µs low gap then the high pulse. -/
def durBit (b : Bool) : Nat := 50 + bitH b

/-- Total wire duration of a list of encoded bits. -/
def durBits : List Bool → Nat
  | [] => 0
  | b :: l => durBit b + durBits l

/-- Segment list of a bit train: each bit is a 50 µs low gap followed by its
high pulse. -/
def bitSegs : List Bool → List (Nat × Bool)
  | [] => []
  | b :: l => (50, false) :: (bitH b, true) :: bitSegs l

/-- Level of a piecewise-constant signal given by `(duration, level)`
segments, low after the last segment. -/
def lineOf : List (Nat × Bool) → Nat → Bool
  | [], _ => false
  | (d, v) :: rest, t => if t < d then v else lineOf rest (t - d)

/-- The eight bits of a byte, most significant first (wire order). -/
def byteBits (b : Nat) : List Bool :=
  [b.testBit 7, b.testBit 6, b.testBit 5, b.testBit 4,
   b.testBit 3, b.testBit 2, b.testBit 1, b.testBit 0]

/-- The forty bits of a frame in wire order. -/
def frameBits (b0 b1 b2 b3 b4 : Nat) : List Bool :=
  byteBits b0 ++ (byteBits b1 ++ (byteBits b2 ++ (byteBits b3 ++ byteBits b4)))

/-- Full wire signal of a frame: host start phase (level irrelevant, the
driver controls the line), 80 µs acknowledge low, 80 µs acknowledge high,
then the bit train. -/
def encSegs (bits : List Bool) : List (Nat × Bool) :=
  (startTime, true) :: (80, false) :: (80, true) :: bitSegs bits

/-- The line carrying the frame `(b0, b1, b2, b3, b4)`. -/
def encodeLine (b0 b1 b2 b3 b4 : Nat) : Nat → Bool :=
  lineOf (encSegs (frameBits b0 b1 b2 b3 b4))

/-- The byte-accumulation step of `readByteAux` (`*byte |= 1 << bit`). -/
def accByte (acc k : Nat) (x : Bool) : Nat := if x then acc ||| (1 <<< k) else acc

/-- Value accumulated by `readByteAux` over a list of bits (each new bit at
position "number of bits still to come"). -/
def foldAcc (acc : Nat) : List Bool → Nat
  | [] => acc
  | x :: l => foldAcc (accByte acc l.length x) l

/-! ## The DWT delay provider -/

/-- Field `cycles_per_us` computed by `DwtDelay::new` (dwt_delay.rs line 12). -/
def cyclesPerUs (cpu_freq_hz : Nat) : Nat := cpu_freq_hz / 1000000

/-- Wrapping subtraction `current.wrapping_sub(start)` on `u32` values. -/
def wrappingSub (current start : Nat) : Nat :=
  (current % 2 ^ 32 + (2 ^ 32 - start % 2 ^ 32)) % 2 ^ 32

/-- The polling loop of `DwtDelay::delay_1us` (dwt_delay.rs lines 21–27):
`reads i` is the `i`-th value returned by `DWT::cycle_count()` during the
call (`reads 0` is `start`); the loop exits at the first poll whose wrapped
elapsed count reaches `cyc`.  Fuel bounds the number of polls modelled. -/
def delayAux (reads : Nat → Nat) (cyc : Nat) : Nat → Nat → Option Nat
  | 0, _ => none
  | fuel+1, i =>
      if cyc ≤ wrappingSub (reads i) (reads 0) then some i
      else delayAux reads cyc fuel (i + 1)

/-- Method `DwtDelay::delay_1us`: reads `start`, then polls from the first
subsequent read.  Returns the index of the read at which it exits. -/
def delay_1us (reads : Nat → Nat) (cyc fuel : Nat) : Option Nat :=
  delayAux reads cyc fuel 1

/-! ## Loop lemmas -/

theorem waitAux_ok (line : Nat → Bool) (target : Bool) :
    ∀ (k fuel t : Nat), k < fuel →
    (∀ j, j < k → line (t + j) = !target) → line (t + k) = target →
    waitAux line target t fuel = .ok (t + k) := by
  intro k
  induction k with
  | zero =>
    intro fuel t hk _ hhit
    match fuel, hk with
    | fuel + 1, _ =>
      simp only [waitAux]
      rw [if_pos (by simpa using hhit)]
      simp
  | succ k ih =>
    intro fuel t hk hmiss hhit
    match fuel, hk with
    | fuel + 1, hk =>
      have h0 : line t = !target := by simpa using hmiss 0 (Nat.succ_pos k)
      simp only [waitAux]
      rw [if_neg (by rw [h0]; cases target <;> simp)]
      have := ih fuel (t + 1) (by omega)
        (fun j hj => by
          have := hmiss (j + 1) (by omega)
          simpa [Nat.add_assoc, Nat.add_comm 1 j] using this)
        (by
          have : t + 1 + k = t + (k + 1) := by omega
          rw [this]; exact hhit)
      rw [this]
      congr 1
      omega

theorem waitAux_timeout (line : Nat → Bool) (target : Bool) :
    ∀ (fuel t : Nat), (∀ j, j < fuel → line (t + j) = !target) →
    waitAux line target t fuel = .error .Timeout := by
  intro fuel
  induction fuel with
  | zero => intro t _; rfl
  | succ fuel ih =>
    intro t hmiss
    have h0 : line t = !target := by simpa using hmiss 0 (Nat.succ_pos fuel)
    simp only [waitAux]
    rw [if_neg (by rw [h0]; cases target <;> simp)]
    exact ih (t + 1) (fun j hj => by
      have := hmiss (j + 1) (by omega)
      simpa [Nat.add_assoc, Nat.add_comm 1 j] using this)

theorem measureAux_spec (line : Nat → Bool) :
    ∀ (h fuel ht t : Nat), h ≤ fuel →
    (∀ j, j < h → line (t + j) = true) → line (t + h) = false →
    measureAux line t ht fuel = (ht + h, t + h) := by
  intro h
  induction h with
  | zero =>
    intro fuel ht t _ _ hlow
    match fuel with
    | 0 => simp [measureAux]
    | fuel + 1 =>
      simp only [measureAux]
      rw [if_neg (by simpa using hlow)]
      simp
  | succ h ih =>
    intro fuel ht t hfuel hhigh hlow
    match fuel, hfuel with
    | fuel + 1, hfuel =>
      simp only [measureAux]
      rw [if_pos (by simpa using hhigh 0 (Nat.succ_pos h))]
      have := ih fuel (ht + 1) (t + 1) (by omega)
        (fun j hj => by
          have := hhigh (j + 1) (by omega)
          simpa [Nat.add_assoc, Nat.add_comm 1 j] using this)
        (by
          have : t + 1 + h = t + (h + 1) := by omega
          rw [this]; exact hlow)
      rw [this]
      simp only [Prod.mk.injEq]
      omega

theorem measureAux_fst_le (line : Nat → Bool) :
    ∀ (fuel t ht : Nat), (measureAux line t ht fuel).1 ≤ ht + fuel := by
  intro fuel
  induction fuel with
  | zero => intro t ht; simp [measureAux]
  | succ fuel ih =>
    intro t ht
    simp only [measureAux]
    split
    · have := ih (t + 1) (ht + 1)
      omega
    · simp

theorem measureAux_allhigh (line : Nat → Bool) :
    ∀ (fuel t ht : Nat), (∀ j, j < fuel → line (t + j) = true) →
    measureAux line t ht fuel = (ht + fuel, t + fuel) := by
  intro fuel
  induction fuel with
  | zero => intro t ht _; simp [measureAux]
  | succ fuel ih =>
    intro t ht hhigh
    simp only [measureAux]
    rw [if_pos (by simpa using hhigh 0 (Nat.succ_pos fuel))]
    have := ih (t + 1) (ht + 1) (fun j hj => by
      have := hhigh (j + 1) (by omega)
      simpa [Nat.add_assoc, Nat.add_comm 1 j] using this)
    rw [this]
    simp only [Prod.mk.injEq]
    omega

/-! ## Signal evaluation lemmas -/

theorem lineOf_lt (d : Nat) (v : Bool) (segs : List (Nat × Bool)) (t : Nat)
    (h : t < d) : lineOf ((d, v) :: segs) t = v := by
  simp [lineOf, h]

theorem lineOf_shift (d : Nat) (v : Bool) (segs : List (Nat × Bool)) (u : Nat) :
    lineOf ((d, v) :: segs) (d + u) = lineOf segs u := by
  simp only [lineOf]
  rw [if_neg (by omega)]
  congr 1
  omega

theorem bitSegs_zero (l : List Bool) : lineOf (bitSegs l) 0 = false := by
  cases l with
  | nil => rfl
  | cons b l => simp [bitSegs, lineOf]

theorem durBit_pos (b : Bool) : 0 < bitH b ∧ bitH b ≤ 200 := by
  cases b <;> simp [bitH]

theorem lineOf_bitSegs_gap (b : Bool) (l : List Bool) (j : Nat) (hj : j < 50) :
    lineOf (bitSegs (b :: l)) j = false := by
  simp only [bitSegs]
  exact lineOf_lt _ _ _ _ hj

theorem lineOf_bitSegs_high (b : Bool) (l : List Bool) (j : Nat) (hj : j < bitH b) :
    lineOf (bitSegs (b :: l)) (50 + j) = true := by
  simp only [bitSegs]
  rw [lineOf_shift]
  exact lineOf_lt _ _ _ _ hj

theorem lineOf_bitSegs_shift (b : Bool) (l : List Bool) (u : Nat) :
    lineOf (bitSegs (b :: l)) (durBit b + u) = lineOf (bitSegs l) u := by
  simp only [bitSegs, durBit]
  rw [Nat.add_assoc, lineOf_shift, lineOf_shift]

theorem lineOf_bitSegs_append (bs l : List Bool) (u : Nat) :
    lineOf (bitSegs (bs ++ l)) (durBits bs + u) = lineOf (bitSegs l) u := by
  induction bs generalizing u with
  | nil => simp [durBits]
  | cons b bs ih =>
    have h1 : durBits (b :: bs) + u = durBit b + (durBits bs + u) := by
      simp [durBits]; omega
    rw [List.cons_append, h1, lineOf_bitSegs_shift, ih]

theorem durBits_append (bs l : List Bool) :
    durBits (bs ++ l) = durBits bs + durBits l := by
  induction bs with
  | nil => simp [durBits]
  | cons b bs ih => simp [durBits, ih]; omega

theorem readBit_enc (b : Bool) (l : List Bool) (t : Nat) (line : Nat → Bool)
    (hline : ∀ u, line (t + u) = lineOf (bitSegs (b :: l)) u) :
    readBit line t = .ok (b, t + durBit b) := by
  have hw : wait_for_high line 100 t = .ok (t + 50) := by
    apply waitAux_ok line true 50 101 t (by omega)
    · intro j hj
      rw [hline j, lineOf_bitSegs_gap b l j hj]
      rfl
    · rw [hline 50]
      have := lineOf_bitSegs_high b l 0 (durBit_pos b).1
      simpa using this
  have hm : measureAux line (t + 50) 0 200 = (bitH b, t + 50 + bitH b) := by
    have := measureAux_spec line (bitH b) 200 0 (t + 50) (durBit_pos b).2
      (fun j hj => by
        have : t + 50 + j = t + (50 + j) := by omega
        rw [this, hline (50 + j)]
        exact lineOf_bitSegs_high b l j hj)
      (by
        have h1 : t + 50 + bitH b = t + (durBit b + 0) := by simp [durBit]; omega
        rw [h1, hline (durBit b + 0), lineOf_bitSegs_shift, bitSegs_zero])
    simpa using this
  have hl : wait_for_low line 100 (t + 50 + bitH b) = .ok (t + 50 + bitH b) := by
    apply waitAux_ok line false 0 101 (t + 50 + bitH b) (by omega) (by omega)
    have h1 : t + 50 + bitH b + 0 = t + (durBit b + 0) := by simp [durBit]; omega
    rw [h1, hline (durBit b + 0), lineOf_bitSegs_shift, bitSegs_zero]
  have hbit : decide (20 < bitH b) = b := by cases b <;> simp [bitH]
  have htime : t + 50 + bitH b = t + durBit b := by simp [durBit]; omega
  rw [htime] at hl
  simp only [readBit, hw, hm, htime, hl, Bind.bind, Except.bind, hbit]

theorem readByteAux_enc (line : Nat → Bool) :
    ∀ (bs l : List Bool) (acc t : Nat),
    (∀ u, line (t + u) = lineOf (bitSegs (bs ++ l)) u) →
    readByteAux line bs.length acc t = .ok (foldAcc acc bs, t + durBits bs) := by
  intro bs
  induction bs with
  | nil =>
    intro l acc t _
    simp [readByteAux, foldAcc, durBits]
  | cons x bs ih =>
    intro l acc t hline
    have hx : readBit line t = .ok (x, t + durBit x) := by
      apply readBit_enc x (bs ++ l) t line
      intro u
      rw [hline u, List.cons_append]
    have hrest : ∀ u, line (t + durBit x + u) = lineOf (bitSegs (bs ++ l)) u := by
      intro u
      have h1 : t + durBit x + u = t + (durBit x + u) := by omega
      rw [h1, hline (durBit x + u), List.cons_append, lineOf_bitSegs_shift]
    have := ih l (accByte acc bs.length x) (t + durBit x) hrest
    have hlen : (x :: bs).length = bs.length + 1 := rfl
    rw [hlen]
    simp only [readByteAux, hx, Bind.bind, Except.bind]
    rw [show (if x then acc ||| 1 <<< bs.length else acc) = accByte acc bs.length x from rfl]
    rw [this]
    simp only [foldAcc, Except.ok.injEq, Prod.mk.injEq, durBits]
    constructor
    · trivial
    · omega

theorem enc_ack_low (bits : List Bool) (j : Nat) (hj : j < 80) :
    lineOf (encSegs bits) (startTime + j) = false := by
  simp only [encSegs]
  rw [lineOf_shift]
  exact lineOf_lt _ _ _ _ hj

theorem enc_ack_high (bits : List Bool) (j : Nat) (hj : j < 80) :
    lineOf (encSegs bits) (startTime + (80 + j)) = true := by
  simp only [encSegs]
  rw [lineOf_shift, lineOf_shift]
  exact lineOf_lt _ _ _ _ hj

theorem enc_data (bits : List Bool) (u : Nat) :
    lineOf (encSegs bits) (startTime + (160 + u)) = lineOf (bitSegs bits) u := by
  simp only [encSegs]
  have e : (160 : Nat) + u = 80 + (80 + u) := by omega
  rw [e, lineOf_shift, lineOf_shift, lineOf_shift]

theorem readByte_at (line : Nat → Bool) (bs l : List Bool) (t : Nat)
    (hlen : bs.length = 8)
    (h : ∀ u, line (t + u) = lineOf (bitSegs (bs ++ l)) u) :
    readByte line t = .ok (foldAcc 0 bs, t + durBits bs) := by
  rw [readByte, ← hlen]
  exact readByteAux_enc line bs l 0 t h

theorem lineShift_at (line : Nat → Bool) (bs l : List Bool) (t : Nat)
    (h : ∀ u, line (t + u) = lineOf (bitSegs (bs ++ l)) u) :
    ∀ u, line (t + durBits bs + u) = lineOf (bitSegs l) u := by
  intro u
  have e : t + durBits bs + u = t + (durBits bs + u) := by omega
  rw [e, h, lineOf_bitSegs_append]

theorem readProto_enc5 (B0 B1 B2 B3 B4 : List Bool)
    (h0 : B0.length = 8) (h1 : B1.length = 8) (h2 : B2.length = 8)
    (h3 : B3.length = 8) (h4 : B4.length = 8) :
    readProto (lineOf (encSegs (B0 ++ (B1 ++ (B2 ++ (B3 ++ B4)))))) =
      .ok ((foldAcc 0 B0, foldAcc 0 B1, foldAcc 0 B2, foldAcc 0 B3, foldAcc 0 B4),
           startTime + 160 + durBits (B0 ++ (B1 ++ (B2 ++ (B3 ++ B4))))) := by
  have hL : ∀ u, lineOf (encSegs (B0 ++ (B1 ++ (B2 ++ (B3 ++ B4))))) u
      = lineOf (encSegs (B0 ++ (B1 ++ (B2 ++ (B3 ++ B4))))) u := fun _ => rfl
  generalize hF : B0 ++ (B1 ++ (B2 ++ (B3 ++ B4))) = F at *
  set L := lineOf (encSegs F) with hLdef
  have w1 : wait_for_low L 100 startTime = .ok startTime := by
    have := waitAux_ok L false 0 101 startTime (by omega)
      (fun j hj => absurd hj (by omega))
      (by rw [hLdef]; exact enc_ack_low F 0 (by omega))
    simpa using this
  have w2 : wait_for_high L 100 startTime = .ok (startTime + 80) := by
    apply waitAux_ok L true 80 101 startTime (by omega)
    · intro j hj
      rw [hLdef]
      simp only [Bool.not_true]
      exact enc_ack_low F j hj
    · rw [hLdef]
      have := enc_ack_high F 0 (by omega)
      simpa using this
  have w3 : wait_for_low L 100 (startTime + 80) = .ok (startTime + 160) := by
    have := waitAux_ok L false 80 101 (startTime + 80) (by omega)
      (fun j hj => by
        rw [hLdef]
        simp only [Bool.not_false]
        have e : startTime + 80 + j = startTime + (80 + j) := by omega
        rw [e]
        exact enc_ack_high F j hj)
      (by
        rw [hLdef]
        have e : startTime + 80 + 80 = startTime + (160 + 0) := by omega
        rw [e, enc_data, bitSegs_zero])
    have e : startTime + 80 + 80 = startTime + 160 := by omega
    rw [e] at this
    exact this
  have hdata : ∀ u, L (startTime + 160 + u) = lineOf (bitSegs F) u := by
    intro u
    have e : startTime + 160 + u = startTime + (160 + u) := by omega
    rw [hLdef, e]
    exact enc_data F u
  subst hF
  have d0 := hdata
  have r0 := readByte_at L B0 (B1 ++ (B2 ++ (B3 ++ B4))) (startTime + 160) h0 d0
  have d1 := lineShift_at L B0 (B1 ++ (B2 ++ (B3 ++ B4))) (startTime + 160) d0
  have r1 := readByte_at L B1 (B2 ++ (B3 ++ B4)) _ h1 d1
  have d2 := lineShift_at L B1 (B2 ++ (B3 ++ B4)) _ d1
  have r2 := readByte_at L B2 (B3 ++ B4) _ h2 d2
  have d3 := lineShift_at L B2 (B3 ++ B4) _ d2
  have r3 := readByte_at L B3 B4 _ h3 d3
  have d4' : ∀ u, L (startTime + 160 + durBits B0 + durBits B1 + durBits B2 + durBits B3 + u)
      = lineOf (bitSegs (B4 ++ [])) u := by
    have := lineShift_at L B3 B4 _ d3
    intro u
    rw [List.append_nil]
    exact this u
  have r4 := readByte_at L B4 [] _ h4 d4'
  simp only [readProto, w1, w2, w3, r0, r1, r2, r3, r4, Bind.bind, Except.bind,
    Except.ok.injEq, Prod.mk.injEq, true_and, and_true]
  simp only [durBits_append]
  omega

set_option maxRecDepth 8000 in
theorem foldAcc_byteBits_fin : ∀ x : Fin 256, foldAcc 0 (byteBits x.val) = x.val := by
  decide

theorem foldAcc_byteBits (b : Nat) (hb : b < 256) : foldAcc 0 (byteBits b) = b :=
  foldAcc_byteBits_fin ⟨b, hb⟩

theorem byteBits_length (b : Nat) : (byteBits b).length = 8 := rfl

theorem readProto_encode_bytes (b0 b1 b2 b3 b4 : Nat)
    (h0 : b0 < 256) (h1 : b1 < 256) (h2 : b2 < 256) (h3 : b3 < 256) (h4 : b4 < 256) :
    readProto (encodeLine b0 b1 b2 b3 b4) =
      .ok ((b0, b1, b2, b3, b4),
           startTime + 160 + durBits (frameBits b0 b1 b2 b3 b4)) := by
  have := readProto_enc5 (byteBits b0) (byteBits b1) (byteBits b2) (byteBits b3)
    (byteBits b4) rfl rfl rfl rfl rfl
  rw [foldAcc_byteBits b0 h0, foldAcc_byteBits b1 h1, foldAcc_byteBits b2 h2,
    foldAcc_byteBits b3 h3, foldAcc_byteBits b4 h4] at this
  exact this

theorem wireChecksum_eq (d0 d1 d2 d3 : Nat) :
    wireChecksum d0 d1 d2 d3 = (d0 + d1 + d2 + d3) % 256 := by
  simp only [wireChecksum]
  omega

theorem wireChecksum_lt (d0 d1 d2 d3 : Nat) : wireChecksum d0 d1 d2 d3 < 256 := by
  simp only [wireChecksum]
  omega

theorem dhtRead_encode_ok (b0 b1 b2 b3 b4 : Nat)
    (h0 : b0 < 256) (h1 : b1 < 256) (h2 : b2 < 256) (h3 : b3 < 256)
    (hck : wireChecksum b0 b1 b2 b3 = b4) :
    dhtRead (encodeLine b0 b1 b2 b3 b4) =
      (.ok { temperature := parseValue b2 b3, humidity := parseValue b0 b1 },
       startEvents ++ parkEvents) := by
  have h4 : b4 < 256 := hck ▸ wireChecksum_lt b0 b1 b2 b3
  rw [dhtRead, readProto_encode_bytes b0 b1 b2 b3 b4 h0 h1 h2 h3 h4]
  simp [hck]

set_option maxRecDepth 8000 in
theorem parseValue_frac_zero_fin : ∀ x : Fin 256, parseValue x.val 0 = x.val * 2 ^ 27 := by
  decide

theorem parseValue_frac_zero (b : Nat) (hb : b < 256) :
    parseValue b 0 = b * 2 ^ 27 :=
  parseValue_frac_zero_fin ⟨b, hb⟩

theorem toRatF32_int (b : Nat) : toRatF32 (b * 2 ^ 27) = (b : ℚ) := by
  simp only [toRatF32]
  push_cast
  field_simp
  norm_num

/-! ## Claim theorems -/

/-- C1 (amended): for every frame with a valid checksum, delivered with the
canonical in-budget edge timing, `read` returns `Ok` with
`humidity = b0 + b1 * 0.1` and `temperature = b2 + b3 * 0.1` computed in
binary32 arithmetic; these equal the exact rationals `b0 + b1/10` and
`b2 + b3/10` whenever the fractional byte is `0` (the sensor's normal case),
but not in general (see the counterexample). -/
theorem C1_read_valid_frame (b0 b1 b2 b3 : Nat)
    (h0 : b0 < 256) (h1 : b1 < 256) (h2 : b2 < 256) (h3 : b3 < 256) :
    dhtRead (encodeLine b0 b1 b2 b3 ((b0 + b1 + b2 + b3) % 256)) =
      (.ok { temperature := parseValue b2 b3, humidity := parseValue b0 b1 },
       startEvents ++ parkEvents)
    ∧ (b1 = 0 → toRatF32 (parseValue b0 b1) = (b0 : ℚ))
    ∧ (b3 = 0 → toRatF32 (parseValue b2 b3) = (b2 : ℚ)) := by
  refine ⟨?_, fun hb1 => ?_, fun hb3 => ?_⟩
  · exact dhtRead_encode_ok b0 b1 b2 b3 _ h0 h1 h2 h3 (wireChecksum_eq b0 b1 b2 b3)
  · subst hb1
    rw [parseValue_frac_zero b0 h0, toRatF32_int]
  · subst hb3
    rw [parseValue_frac_zero b2 h2, toRatF32_int]

/-- C1 counterexample: for the valid frame `[0, 1, 0, 0, 1]`, `read` succeeds
but the returned humidity (the binary32 value `0.1`, i.e.
`13421773 * 2^(-27)`) is not exactly the rational `0 + 1/10`. -/
theorem C1_float_not_exact :
    (dhtRead (encodeLine 0 1 0 0 1)).1
      = .ok { temperature := 0, humidity := 13421773 }
    ∧ toRatF32 13421773 ≠ (0 : ℚ) + 1 / 10 := by
  constructor
  · have h := dhtRead_encode_ok 0 1 0 0 1 (by decide) (by decide) (by decide)
      (by decide) (by decide)
    rw [h]
    rfl
  · simp only [toRatF32]
    norm_num

/-- C1 witness at the frame `[50, 0, 24, 0, 74]` (Scenario A of the spec). -/
theorem C1_witness :
    dhtRead (encodeLine 50 0 24 0 ((50 + 0 + 24 + 0) % 256)) =
      (.ok { temperature := parseValue 24 0, humidity := parseValue 50 0 },
       startEvents ++ parkEvents)
    ∧ toRatF32 (parseValue 50 0) = ((50 : Nat) : ℚ) := by
  have h := C1_read_valid_frame 50 0 24 0 (by decide) (by decide) (by decide) (by decide)
  exact ⟨h.1, h.2.1 rfl⟩

/-- C2: whenever the protocol phase delivers a full 5-byte frame whose
checksum does not hold, `read` returns `ChecksumError` (never a reading),
and the checksum the driver compares against byte 4 is exactly
`(b0 + b1 + b2 + b3) mod 256`. -/
theorem C2_checksum_reject (line : Nat → Bool) (d0 d1 d2 d3 d4 t : Nat)
    (hok : readProto line = .ok ((d0, d1, d2, d3, d4), t)) :
    wireChecksum d0 d1 d2 d3 = (d0 + d1 + d2 + d3) % 256
    ∧ ((d0 + d1 + d2 + d3) % 256 ≠ d4 →
       dhtRead line = (.error .ChecksumError, startEvents ++ parkEvents)) := by
  refine ⟨wireChecksum_eq d0 d1 d2 d3, fun hne => ?_⟩
  rw [dhtRead, hok]
  simp [wireChecksum_eq, hne]

/-- C2 witness: the frame `[50, 0, 24, 0, 75]` (Scenario B of the spec). -/
theorem C2_witness :
    wireChecksum 50 0 24 0 = (50 + 0 + 24 + 0) % 256
    ∧ dhtRead (encodeLine 50 0 24 0 75) =
        (.error .ChecksumError, startEvents ++ parkEvents) := by
  have hp := readProto_encode_bytes 50 0 24 0 75 (by decide) (by decide) (by decide)
    (by decide) (by decide)
  have h := C2_checksum_reject (encodeLine 50 0 24 0 75) 50 0 24 0 75 _ hp
  exact ⟨h.1, h.2 (by decide)⟩

/-- C5: a successful protocol phase reads exactly 40 bits as 5 bytes in wire
order, each byte filled most-significant-bit first (the first bit of a byte
has weight 128, the eighth weight 1), advancing to the next byte after 8
bits. -/
theorem C5_frame_msb_first (b0 b1 b2 b3 b4 : Nat)
    (h0 : b0 < 256) (h1 : b1 < 256) (h2 : b2 < 256) (h3 : b3 < 256) (h4 : b4 < 256) :
    readProto (encodeLine b0 b1 b2 b3 b4) =
      .ok ((b0, b1, b2, b3, b4),
           startTime + 160 + durBits (frameBits b0 b1 b2 b3 b4))
    ∧ (frameBits b0 b1 b2 b3 b4).length = 40
    ∧ foldAcc 0 [true, false, false, false, false, false, false, false] = 128
    ∧ foldAcc 0 [false, false, false, false, false, false, false, true] = 1 := by
  refine ⟨readProto_encode_bytes b0 b1 b2 b3 b4 h0 h1 h2 h3 h4, ?_, by decide, by decide⟩
  simp [frameBits, byteBits]

/-- C5 witness at the frame `[50, 0, 24, 0, 74]`. -/
theorem C5_witness :
    readProto (encodeLine 50 0 24 0 74) =
      .ok ((50, 0, 24, 0, 74),
           startTime + 160 + durBits (frameBits 50 0 24 0 74))
    ∧ (frameBits 50 0 24 0 74).length = 40 := by
  have h := C5_frame_msb_first 50 0 24 0 74 (by decide) (by decide) (by decide)
    (by decide) (by decide)
  exact ⟨h.1, h.2.1⟩

/-- C3: if the line does not reach the required level within the 100 µs
budget (101 one-microsecond polls), `wait_for_low` / `wait_for_high` return
`Timeout`; at the `read` level a timeout on the first awaited edge aborts
the call immediately with `Err(Timeout)`, performing no further protocol
steps (no later pin operation, no incomplete frame). -/
theorem C3_edge_timeout :
    (∀ (line : Nat → Bool) (t : Nat), (∀ j, j ≤ 100 → line (t + j) = true) →
      wait_for_low line 100 t = .error .Timeout)
    ∧ (∀ (line : Nat → Bool) (t : Nat), (∀ j, j ≤ 100 → line (t + j) = false) →
      wait_for_high line 100 t = .error .Timeout)
    ∧ (∀ line : Nat → Bool, (∀ j, j ≤ 100 → line (startTime + j) = true) →
      dhtRead line = (.error .Timeout, startEvents)) := by
  have hlow : ∀ (line : Nat → Bool) (t : Nat), (∀ j, j ≤ 100 → line (t + j) = true) →
      wait_for_low line 100 t = .error .Timeout := by
    intro line t h
    apply waitAux_timeout
    intro j hj
    simpa using h j (by omega)
  refine ⟨hlow, ?_, ?_⟩
  · intro line t h
    apply waitAux_timeout
    intro j hj
    simpa using h j (by omega)
  · intro line h
    have hp : readProto line = .error .Timeout := by
      simp only [readProto, hlow line startTime h, Bind.bind, Except.bind]
    rw [dhtRead, hp]

/-- C3 witness: a line stuck high never acknowledges; a stuck-low line never
presents a rising edge; a stuck-high line makes `read` abort with `Timeout`
right after the start phase. -/
theorem C3_witness :
    wait_for_low (fun _ => true) 100 0 = .error .Timeout
    ∧ wait_for_high (fun _ => false) 100 0 = .error .Timeout
    ∧ dhtRead (fun _ => true) = (.error .Timeout, startEvents) := by
  exact ⟨C3_edge_timeout.1 (fun _ => true) 0 (fun j _ => rfl),
    C3_edge_timeout.2.1 (fun _ => false) 0 (fun j _ => rfl),
    C3_edge_timeout.2.2 (fun _ => true) (fun j _ => rfl)⟩

/-- C4: a bit whose measured high pulse lasts `h` microseconds
(`0 < h ≤ 200`, line then low) is decoded as `1` iff `h` exceeds 20 µs:
exactly 20 µs decodes to `0`, 21 µs or more decodes to `1`. -/
theorem C4_bit_threshold (line : Nat → Bool) (t h : Nat)
    (hpos : 0 < h) (hle : h ≤ 200)
    (hhigh : ∀ j, j < h → line (t + j) = true) (hlow : line (t + h) = false) :
    readBit line t = .ok (decide (20 < h), t + h)
    ∧ (h = 20 → readBit line t = .ok (false, t + h))
    ∧ (21 ≤ h → readBit line t = .ok (true, t + h)) := by
  have hw : wait_for_high line 100 t = .ok t := by
    have := waitAux_ok line true 0 101 t (by omega) (fun j hj => absurd hj (by omega))
      (by simpa using hhigh 0 hpos)
    simpa using this
  have hm : measureAux line t 0 200 = (h, t + h) := by
    simpa using measureAux_spec line h 200 0 t hle hhigh hlow
  have hwl : wait_for_low line 100 (t + h) = .ok (t + h) := by
    have := waitAux_ok line false 0 101 (t + h) (by omega)
      (fun j hj => absurd hj (by omega)) (by simpa using hlow)
    simpa using this
  have hmain : readBit line t = .ok (decide (20 < h), t + h) := by
    simp only [readBit, hw, hm, hwl, Bind.bind, Except.bind]
  refine ⟨hmain, fun h20 => ?_, fun h21 => ?_⟩
  · subst h20
    simpa using hmain
  · have hd : decide (20 < h) = true := by
      simp only [decide_eq_true_eq]
      omega
    rw [hmain, hd]

/-- C4 witness: a 20 µs pulse decodes to `0`, a 21 µs pulse to `1`. -/
theorem C4_witness :
    readBit (fun u => decide (u < 20)) 0 = .ok (false, 0 + 20)
    ∧ readBit (fun u => decide (u < 21)) 0 = .ok (true, 0 + 21) := by
  constructor
  · exact (C4_bit_threshold (fun u => decide (u < 20)) 0 20 (by decide) (by decide)
      (fun j hj => by simp only [decide_eq_true_eq]; omega) (by decide)).2.1 rfl
  · exact (C4_bit_threshold (fun u => decide (u < 21)) 0 21 (by decide) (by decide)
      (fun j hj => by simp only [decide_eq_true_eq]; omega) (by decide)).2.2 (by decide)

/-- C8: on every execution in which all 40 bits are read successfully, the
driver drives the line as output and sets it high before returning — the
parking events close the trace on both the `Ok` path and the
`ChecksumError` path. -/
theorem C8_line_parked (line : Nat → Bool)
    (r : (Nat × Nat × Nat × Nat × Nat) × Nat) (hok : readProto line = .ok r) :
    (dhtRead line).2 = startEvents ++ parkEvents := by
  obtain ⟨⟨d0, d1, d2, d3, d4⟩, t⟩ := r
  rw [dhtRead, hok]
  dsimp only
  split <;> rfl

/-- C8 witness: a complete frame with a good checksum (and, via C2's
witness, the same trace arises on a checksum failure). -/
theorem C8_witness :
    (dhtRead (encodeLine 50 0 24 0 74)).2 = startEvents ++ parkEvents :=
  C8_line_parked (encodeLine 50 0 24 0 74) _
    (readProto_encode_bytes 50 0 24 0 74 (by decide) (by decide) (by decide)
      (by decide) (by decide))

/-- C9: the high-pulse measurement loop always terminates with a measured
duration of at most 200 µs, for every possible line — in particular a line
that never goes low exits with exactly `high_time = 200`. -/
theorem C9_measure_capped (line : Nat → Bool) (t : Nat) :
    (measureAux line t 0 200).1 ≤ 200
    ∧ ((∀ j, j < 200 → line (t + j) = true) →
       measureAux line t 0 200 = (200, t + 200)) := by
  constructor
  · simpa using measureAux_fst_le line 200 t 0
  · intro h
    simpa using measureAux_allhigh line 200 t 0 h

/-- C9 witness: the always-high line. -/
theorem C9_witness :
    (measureAux (fun _ => true) 0 0 200).1 ≤ 200
    ∧ measureAux (fun _ => true) 0 0 200 = (200, 0 + 200) := by
  have h := C9_measure_capped (fun _ => true) 0
  exact ⟨h.1, h.2 (fun j _ => rfl)⟩

/-- C10: on every path on which `read` returns `Err(Timeout)`, the pin trace
is exactly the four start-phase events, ending with the switch to input
with pull-up — the line is not re-driven output-high before the error
returns. -/
theorem C10_timeout_leaves_input (line : Nat → Bool)
    (htimeout : (dhtRead line).1 = .error .Timeout) :
    (dhtRead line).2 = startEvents
    ∧ (dhtRead line).2.getLast? = some PinEvent.setInput := by
  cases hp : readProto line with
  | error e =>
    rw [dhtRead, hp]
    exact ⟨rfl, rfl⟩
  | ok r =>
    obtain ⟨⟨d0, d1, d2, d3, d4⟩, t⟩ := r
    exfalso
    rw [dhtRead, hp] at htimeout
    by_cases hc : wireChecksum d0 d1 d2 d3 ≠ d4 <;> simp [hc] at htimeout

/-- C10 witness: the always-high line times out on the first acknowledge
edge, leaving the trace at the four start events. -/
theorem C10_witness :
    (dhtRead (fun _ => true)).2 = startEvents
    ∧ (dhtRead (fun _ => true)).2.getLast? = some PinEvent.setInput :=
  C10_timeout_leaves_input (fun _ => true) (by rfl)

theorem wrappingSub_mod (c s : Nat) (hle : s ≤ c) (hlt : c - s < 2 ^ 32) :
    wrappingSub (c % 2 ^ 32) (s % 2 ^ 32) = c - s := by
  have h32 : (2 : Nat) ^ 32 = 4294967296 := by norm_num
  simp only [wrappingSub, h32] at *
  omega

theorem delayAux_finds (reads : Nat → Nat) (cyc : Nat) :
    ∀ (fuel i : Nat),
    (∃ k, i ≤ k ∧ k < i + fuel ∧ cyc ≤ wrappingSub (reads k) (reads 0)) →
    ∃ m, i ≤ m ∧ m < i + fuel ∧ delayAux reads cyc fuel i = some m
      ∧ cyc ≤ wrappingSub (reads m) (reads 0)
      ∧ ∀ j, i ≤ j → j < m → ¬ cyc ≤ wrappingSub (reads j) (reads 0) := by
  intro fuel
  induction fuel with
  | zero =>
    rintro i ⟨k, hk1, hk2, _⟩
    omega
  | succ fuel ih =>
    rintro i ⟨k, hk1, hk2, hk3⟩
    by_cases hi : cyc ≤ wrappingSub (reads i) (reads 0)
    · exact ⟨i, Nat.le_refl i, by omega, by simp [delayAux, hi], hi,
        fun j hj1 hj2 => absurd hj1 (by omega)⟩
    · have hki : i + 1 ≤ k := by
        rcases Nat.eq_or_lt_of_le hk1 with rfl | hlt
        · exact absurd hk3 hi
        · omega
      obtain ⟨m, hm1, hm2, hm3, hm4, hm5⟩ := ih (i + 1) ⟨k, hki, by omega, hk3⟩
      refine ⟨m, by omega, by omega, ?_, hm4, ?_⟩
      · simp [delayAux, hi, hm3]
      · intro j hj1 hj2
        rcases Nat.eq_or_lt_of_le hj1 with rfl | hj
        · exact hi
        · exact hm5 j (by omega) hj2

/-- C6: with a true (unwrapped) cycle count `T`, the `u32` register holds
`T i % 2^32`; as long as the true elapsed count stays below `2^32` the
wrapping subtraction recovers it exactly — even across a counter wrap — and
`delay_1us` returns at the first poll whose elapsed count reaches
`cycles_per_us`. -/
theorem C6_delay_wraparound (T : Nat → Nat) (cyc n : Nat)
    (hn : 1 ≤ n) (hmono : ∀ i, i ≤ n → T 0 ≤ T i ∧ T i - T 0 < 2 ^ 32)
    (hreach : cyc ≤ T n - T 0) :
    (∀ i, i ≤ n → wrappingSub (T i % 2 ^ 32) (T 0 % 2 ^ 32) = T i - T 0)
    ∧ ∃ m, 1 ≤ m ∧ m ≤ n ∧ delay_1us (fun j => T j % 2 ^ 32) cyc n = some m
        ∧ cyc ≤ T m - T 0 ∧ ∀ j, 1 ≤ j → j < m → T j - T 0 < cyc := by
  have hws : ∀ i, i ≤ n → wrappingSub (T i % 2 ^ 32) (T 0 % 2 ^ 32) = T i - T 0 :=
    fun i hi => wrappingSub_mod (T i) (T 0) (hmono i hi).1 (hmono i hi).2
  refine ⟨hws, ?_⟩
  obtain ⟨m, hm1, hm2, hm3, hm4, hm5⟩ :=
    delayAux_finds (fun j => T j % 2 ^ 32) cyc n 1
      ⟨n, hn, by omega, by rw [hws n (Nat.le_refl n)]; exact hreach⟩
  have hmn : m ≤ n := by omega
  refine ⟨m, hm1, hmn, hm3, by rw [← hws m hmn]; exact hm4, ?_⟩
  intro j hj1 hj2
  have := hm5 j hj1 hj2
  rw [hws j (by omega)] at this
  omega

/-- C6 witness: `T i = 2^32 - 8 + 4 i` with `cyc = 10` wraps the `u32`
register during the call (reads are `2^32-8, 2^32-4, 0, 4`) and the loop
exits at the third poll. -/
theorem C6_witness :
    (∀ i, i ≤ 3 → wrappingSub ((2 ^ 32 - 8 + 4 * i) % 2 ^ 32) ((2 ^ 32 - 8 + 4 * 0) % 2 ^ 32)
        = 2 ^ 32 - 8 + 4 * i - (2 ^ 32 - 8 + 4 * 0))
    ∧ ∃ m, 1 ≤ m ∧ m ≤ 3
        ∧ delay_1us (fun j => (2 ^ 32 - 8 + 4 * j) % 2 ^ 32) 10 3 = some m
        ∧ 10 ≤ 2 ^ 32 - 8 + 4 * m - (2 ^ 32 - 8 + 4 * 0)
        ∧ ∀ j, 1 ≤ j → j < m → 2 ^ 32 - 8 + 4 * j - (2 ^ 32 - 8 + 4 * 0) < 10 :=
  C6_delay_wraparound (fun i => 2 ^ 32 - 8 + 4 * i) 10 3 (by norm_num)
    (fun i hi =>
      ⟨by show 2 ^ 32 - 8 + 4 * 0 ≤ 2 ^ 32 - 8 + 4 * i; omega,
       by show 2 ^ 32 - 8 + 4 * i - (2 ^ 32 - 8 + 4 * 0) < 2 ^ 32; omega⟩)
    (by show (10 : Nat) ≤ 2 ^ 32 - 8 + 4 * 3 - (2 ^ 32 - 8 + 4 * 0); norm_num)

/-- C7: `cycles_per_us` is the integer quotient `freq / 1_000_000`, with no
rounding up and no runtime check; for every frequency below 1 MHz it is 0,
and then every `delay_1us` call exits at its very first poll (delays become
no-ops). -/
theorem C7_low_freq_noop (freq : Nat) (hf : freq < 1000000) :
    cyclesPerUs freq = 0
    ∧ cyclesPerUs freq = freq / 1000000
    ∧ ∀ (reads : Nat → Nat) (fuel : Nat),
        delay_1us reads (cyclesPerUs freq) (fuel + 1) = some 1 := by
  have h0 : cyclesPerUs freq = 0 := Nat.div_eq_of_lt hf
  refine ⟨h0, rfl, fun reads fuel => ?_⟩
  rw [h0]
  simp [delay_1us, delayAux]

/-- C7 witness: an 8 kHz clock yields `cycles_per_us = 0` and an
immediately-returning delay. -/
theorem C7_witness :
    cyclesPerUs 8000 = 0
    ∧ delay_1us (fun _ => 0) (cyclesPerUs 8000) (0 + 1) = some 1 := by
  have h := C7_low_freq_noop 8000 (by norm_num)
  exact ⟨h.1, h.2.2 (fun _ => 0) 0⟩
